import Mathlib

/-!
Shallow embedding of the access-tracking and frecency-ranking engine of
`mangit` (`src/storage.rs`).

Modelling conventions:
* Timestamps are integers (seconds); wherever the Rust code calls
  `Utc::now()`, the embedding takes an explicit `now : Int` argument.
  `chrono::Duration` bounds become the corresponding second counts.
* Frecency scores are natural numbers: every tier weight is one of the
  integers 100, 80, 60, 40, 20, 10 and at most ten of them are summed, so
  the `f64` arithmetic of the source is exact and the embedding loses
  nothing.
* The filesystem is a predicate `fs : String → Bool` (path existence), and
  the process working directory is an explicit `cwd : String` argument.
* `HashMap<String, RepoAccess>` is modelled as an association list; the
  list order stands for the map's (unspecified) iteration order.
* String lowercasing and path splitting are defined over `String.data`
  (character lists) so that every definition evaluates inside the kernel.
-/

/-- Lowercasing as used for tag comparison (`str::to_lowercase`). -/
def lowerString (s : String) : String :=
  ⟨s.data.map Char.toLower⟩

/-- `Path::is_absolute` on Unix: the path begins with a slash. -/
def isAbsolutePath (p : String) : Bool :=
  match p.data with
  | c :: _ => c == '/'
  | [] => false

/-- Per-repository usage history (`RepoAccess` in `storage.rs`). -/
structure RepoAccess where
  tags : List String
  access_times : List Int
deriving DecidableEq

namespace RepoAccess

/-- `RepoAccess::new`: seed with the given tags and one access timestamp. -/
def new (now : Int) (tags : List String) : RepoAccess :=
  { tags := tags, access_times := [now] }

/-- `RepoAccess::record_access`: push `now`; if more than 10 entries remain,
`split_off(len - 10)` keeps only the last 10. -/
def record_access (now : Int) (r : RepoAccess) : RepoAccess :=
  let ts := r.access_times ++ [now]
  { r with access_times := if ts.length > 10 then ts.drop (ts.length - 10) else ts }

/-- `RepoAccess::update_tags`: replace the tags wholesale, then record an
access. -/
def update_tags (now : Int) (tags : List String) (r : RepoAccess) : RepoAccess :=
  record_access now { r with tags := tags }

/-- `RepoAccess::reset_frequency`: collapse the history to one fresh
timestamp. -/
def reset_frequency (now : Int) (r : RepoAccess) : RepoAccess :=
  { r with access_times := [now] }

/-- The tier weight assigned to one access of age `age` seconds: the
if-chain inside `RepoAccess::calculate_frecency`. -/
def weight (age : Int) : Nat :=
  if age < 60 then 100
  else if age < 30 * 60 then 80
  else if age < 60 * 60 then 60
  else if age < 24 * 60 * 60 then 40
  else if age < 7 * 24 * 60 * 60 then 20
  else 10

/-- `RepoAccess::calculate_frecency`: loop over `access_times`, accumulating
the tier weight of each timestamp's age `now - t`. -/
def calculate_frecency (now : Int) (r : RepoAccess) : Nat :=
  r.access_times.foldl (fun score t => score + weight (now - t)) 0

/-- Iterated `record_access` at the given instants, oldest first. -/
def applyAccesses (r : RepoAccess) (ts : List Int) : RepoAccess :=
  ts.foldl (fun acc n => acc.record_access n) r

end RepoAccess

/-- The spec's tier table: exclusive upper age bound (in seconds) paired
with the weight, listed top to bottom. -/
def tierTable : List (Int × Nat) :=
  [(60, 100), (30 * 60, 80), (60 * 60, 60), (24 * 60 * 60, 40), (7 * 24 * 60 * 60, 20)]

/-- Tier weight read off the spec's table: the first row (top to bottom)
whose bound exceeds the age wins; ages matching no row weigh 10. -/
def specTierWeight (age : Int) : Nat :=
  ((tierTable.find? (fun b => decide (age < b.1))).map (fun b => b.2)).getD 10

/-- Errors of the engine (`anyhow` errors in the source, named as in the
spec's taxonomy). -/
inductive StorageError
  | pathNotFound (path : String)
  | corruptState
deriving DecidableEq

instance {ε α : Type _} [DecidableEq ε] [DecidableEq α] : DecidableEq (Except ε α) := fun x y =>
  match x, y with
  | .error a, .error b =>
    if h : a = b then isTrue (congrArg Except.error h)
    else isFalse (fun hc => h (Except.error.inj hc))
  | .error _, .ok _ => isFalse (fun hc => Except.noConfusion hc)
  | .ok _, .error _ => isFalse (fun hc => Except.noConfusion hc)
  | .ok a, .ok b =>
    if h : a = b then isTrue (congrArg Except.ok h)
    else isFalse (fun hc => h (Except.ok.inj hc))

/-- The index (`Storage` in `storage.rs`): map from canonical path to
`RepoAccess`, modelled as an association list with unique keys. -/
structure Storage where
  repos : List (String × RepoAccess)
deriving DecidableEq

namespace Storage

/-- `Storage::default()`: the empty index. -/
def empty : Storage := ⟨[]⟩

/-- `HashMap::get` on the modelled map. -/
def find? (s : Storage) (key : String) : Option RepoAccess :=
  (s.repos.find? (fun pr => pr.1 == key)).map (fun pr => pr.2)

/-- `Storage::to_absolute_path` with the working directory explicit:
absolute inputs pass through unchanged, relative ones are joined to `cwd`
with a separator. No `.`/`..` normalization is performed. -/
def to_absolute_path (cwd p : String) : String :=
  if isAbsolutePath p then p else cwd ++ "/" ++ p

/-- `Storage::add_repo`. Returns the `is_new` flag (or the error) together
with the updated storage; the early error return leaves the storage
unchanged. -/
def add_repo (fs : String → Bool) (cwd : String) (now : Int) (p : String)
    (tags : List String) (s : Storage) : Except StorageError Bool × Storage :=
  let abs := to_absolute_path cwd p
  if !fs abs then (.error (.pathNotFound abs), s)
  else
    let is_new := (s.find? abs).isNone
    if is_new then
      (.ok true, ⟨s.repos ++ [(abs, RepoAccess.new now tags)]⟩)
    else
      (.ok false,
       ⟨s.repos.map (fun pr =>
          (pr.1, if pr.1 == abs then pr.2.update_tags now tags else pr.2))⟩)

/-- `Storage::update_repo`: replace tags and record an access if the path is
tracked; report absence through the boolean. -/
def update_repo (cwd : String) (now : Int) (p : String) (tags : List String)
    (s : Storage) : Bool × Storage :=
  let abs := to_absolute_path cwd p
  match s.find? abs with
  | some _ =>
    (true,
     ⟨s.repos.map (fun pr =>
        (pr.1, if pr.1 == abs then pr.2.update_tags now tags else pr.2))⟩)
  | none => (false, s)

/-- `Storage::record_access`: append a timestamp (with truncation) if the
path is tracked. -/
def record_access (cwd : String) (now : Int) (p : String) (s : Storage) :
    Bool × Storage :=
  let abs := to_absolute_path cwd p
  match s.find? abs with
  | some _ =>
    (true,
     ⟨s.repos.map (fun pr =>
        (pr.1, if pr.1 == abs then pr.2.record_access now else pr.2))⟩)
  | none => (false, s)

/-- `Storage::reset_frequency`: collapse one record's history (returning 1,
or 0 when absent), or every record's history (returning the record count). -/
def reset_frequency (cwd : String) (now : Int) (path : Option String)
    (s : Storage) : Nat × Storage :=
  match path with
  | some p =>
    let abs := to_absolute_path cwd p
    match s.find? abs with
    | some _ =>
      (1,
       ⟨s.repos.map (fun pr =>
          (pr.1, if pr.1 == abs then pr.2.reset_frequency now else pr.2))⟩)
    | none => (0, s)
  | none =>
    (s.repos.length, ⟨s.repos.map (fun pr => (pr.1, pr.2.reset_frequency now))⟩)

/-- Tag match test of `search_by_tag`: some stored tag, lowercased, equals
the lowercased query. -/
def tagMatches (tag : String) (r : RepoAccess) : Bool :=
  r.tags.any (fun t => lowerString t == lowerString tag)

/-- The descending-score order used by the sort in `search_by_tag`. -/
def scoreDesc (a b : String × Nat) : Prop := b.2 ≤ a.2

instance : DecidableRel scoreDesc := fun a b => inferInstanceAs (Decidable (b.2 ≤ a.2))

instance : IsTotal (String × Nat) scoreDesc := ⟨fun a b => Nat.le_total b.2 a.2⟩

instance : IsTrans (String × Nat) scoreDesc := ⟨fun _ _ _ h1 h2 => Nat.le_trans h2 h1⟩

/-- `Storage::search_by_tag`: filter records by case-insensitive tag match;
for each match record an access and then compute its frecency; sort the
(path, score) pairs by score descending with a stable sort (Rust's
`sort_by`; extensionally, insertion sort); return only the paths, and the
storage in which every matched record carries the extra access. -/
def search_by_tag (now : Int) (tag : String) (s : Storage) :
    List String × Storage :=
  let scored := (s.repos.filter (fun pr => tagMatches tag pr.2)).map
    (fun pr => (pr.1, (pr.2.record_access now).calculate_frecency now))
  let sorted := List.insertionSort scoreDesc scored
  (sorted.map (fun x => x.1),
   ⟨s.repos.map (fun pr =>
      (pr.1, if tagMatches tag pr.2 then pr.2.record_access now else pr.2))⟩)

/-- `Storage::cleanup`: drop every record whose path no longer exists. -/
def cleanup (fs : String → Bool) (s : Storage) : Storage :=
  ⟨s.repos.filter (fun pr => fs pr.1)⟩

/-- `Storage::new`: load from the backing file. `file` is the file's
contents when it exists; `parse` stands for `serde_json::from_str`, the
external JSON parser. On a successful parse the cleanup pass runs before
the storage is returned. -/
def new (parse : String → Option Storage) (fs : String → Bool)
    (file : Option String) : Except StorageError Storage :=
  match file with
  | none => .ok Storage.empty
  | some data =>
    match parse data with
    | none => .error .corruptState
    | some st => .ok (cleanup fs st)

end Storage

/-- One engine invocation's mutating operation, with its clock reading. -/
inductive Op
  | add (now : Int) (path : String) (tags : List String)
  | update (now : Int) (path : String) (tags : List String)
  | access (now : Int) (path : String)
  | reset (now : Int) (path : Option String)
  | search (now : Int) (tag : String)
deriving DecidableEq

/-- The clock reading an operation runs at. -/
def Op.time : Op → Int
  | .add n _ _ => n
  | .update n _ _ => n
  | .access n _ => n
  | .reset n _ => n
  | .search n _ => n

/-- Run one operation against the storage, keeping only the state. -/
def applyOp (fs : String → Bool) (cwd : String) (s : Storage) : Op → Storage
  | .add n p t => (Storage.add_repo fs cwd n p t s).2
  | .update n p t => (Storage.update_repo cwd n p t s).2
  | .access n p => (Storage.record_access cwd n p s).2
  | .reset n p => (Storage.reset_frequency cwd n p s).2
  | .search n tag => (Storage.search_by_tag n tag s).2

/-- Run a sequence of operations, oldest first. -/
def applyOps (fs : String → Bool) (cwd : String) (s : Storage) : List Op → Storage
  | [] => s
  | op :: rest => applyOps fs cwd (applyOp fs cwd s op) rest

/-- The operations' clock readings never run backwards, starting from `c`. -/
def opsMono (c : Int) : List Op → Bool
  | [] => true
  | op :: rest => decide (c ≤ op.time) && opsMono op.time rest

/-- Splitting a character list at every slash (`str::split('/')`). -/
def splitSlash : List Char → List (List Char)
  | [] => [[]]
  | c :: cs =>
    if c == '/' then [] :: splitSlash cs
    else
      match splitSlash cs with
      | [] => [[c]]
      | g :: gs => (c :: g) :: gs

/-- Filesystem meaning of a component list: empty and `.` components vanish,
`..` removes the previous component. -/
def normalizeParts (parts : List (List Char)) : List (List Char) :=
  parts.foldl
    (fun acc part =>
      if part = [] ∨ part = ['.'] then acc
      else if part = ['.', '.'] then acc.dropLast
      else acc ++ [part]) []

/-- Filesystem denotation of an absolute path string: the normalized
component list. Two absolute path strings denote the same filesystem path
exactly when they normalize to the same components. -/
def normalizePath (p : String) : List (List Char) :=
  normalizeParts (splitSlash p.data)

/-- The invariant carried by every live record at clock reading `clock`. -/
def RecordInv (clock : Int) (r : RepoAccess) : Prop :=
  r.access_times ≠ [] ∧ r.access_times.length ≤ 10 ∧
    r.access_times.Sorted (fun a b => a ≤ b) ∧ ∀ t ∈ r.access_times, t ≤ clock

/-- The storage-wide invariant: every tracked record satisfies `RecordInv`. -/
def StorageInv (clock : Int) (s : Storage) : Prop :=
  ∀ pr ∈ s.repos, RecordInv clock pr.2

/-- The suffix of at most 10 entries that truncation keeps. -/
def lastTen (l : List Int) : List Int :=
  l.drop (l.length - 10)

/-- The clock reading after running the whole operation list. -/
def lastClock (c : Int) : List Op → Int
  | [] => c
  | op :: rest => lastClock op.time rest

/-! ## Basic facts about the tier weight and frecency -/

theorem weight_eq_specTierWeight (age : Int) :
    RepoAccess.weight age = specTierWeight age := by
  unfold RepoAccess.weight specTierWeight tierTable
  by_cases h1 : age < 60 <;> by_cases h2 : age < 1800 <;>
    by_cases h3 : age < 3600 <;> by_cases h4 : age < 86400 <;>
    by_cases h5 : age < 604800 <;>
    simp [List.find?, h1, h2, h3, h4, h5]

theorem foldl_weight_eq_sum (now : Int) (l : List Int) (acc : Nat) :
    l.foldl (fun score t => score + RepoAccess.weight (now - t)) acc
      = acc + (l.map (fun t => RepoAccess.weight (now - t))).sum := by
  induction l generalizing acc with
  | nil => simp
  | cons h t ih => simp [List.foldl_cons, ih, Nat.add_assoc]

theorem calculate_frecency_eq_sum (now : Int) (r : RepoAccess) :
    r.calculate_frecency now
      = (r.access_times.map (fun t => RepoAccess.weight (now - t))).sum := by
  simpa using foldl_weight_eq_sum now r.access_times 0

theorem ten_le_weight (age : Int) : 10 ≤ RepoAccess.weight age := by
  unfold RepoAccess.weight; split_ifs <;> omega

theorem weight_le_hundred (age : Int) : RepoAccess.weight age ≤ 100 := by
  unfold RepoAccess.weight; split_ifs <;> omega

theorem weight_mem_tiers (age : Int) :
    RepoAccess.weight age ∈ ([100, 80, 60, 40, 20, 10] : List Nat) := by
  unfold RepoAccess.weight; split_ifs <;> simp

theorem frecency_pos (now : Int) (r : RepoAccess) (h : r.access_times ≠ []) :
    0 < r.calculate_frecency now := by
  rw [calculate_frecency_eq_sum]
  cases hl : r.access_times with
  | nil => exact absurd hl h
  | cons a l =>
    have := ten_le_weight (now - a)
    simp only [List.map_cons, List.sum_cons]
    omega

theorem frecency_le_hundred_mul (now : Int) (r : RepoAccess) :
    r.calculate_frecency now ≤ 100 * r.access_times.length := by
  rw [calculate_frecency_eq_sum]
  have h := List.sum_le_card_nsmul
    (r.access_times.map (fun t => RepoAccess.weight (now - t))) 100
    (by
      intro x hx
      obtain ⟨t, _, rfl⟩ := List.mem_map.1 hx
      exact weight_le_hundred _)
  simpa [smul_eq_mul, Nat.mul_comm] using h

/-- C1: the frecency score of a record is the sum, over every timestamp in
`access_times`, of the tier weight of the timestamp's age `now - t`, where
the weight is read from the tier table top to bottom (first matching tier
wins, ages matching no tier weigh 10); the result is a pure function of the
record and the current time. -/
theorem c1_frecency_is_sum_of_tier_weights (now : Int) (r : RepoAccess) :
    r.calculate_frecency now
      = (r.access_times.map (fun t => specTierWeight (now - t))).sum := by
  rw [calculate_frecency_eq_sum]
  exact congrArg List.sum
    (List.map_congr_left (fun t _ => weight_eq_specTierWeight (now - t)))

/-- C10: for a record with a non-empty history of at most 10 entries, the
frecency score is strictly positive and at most 1000 (so it is a finite,
exactly-representable value and score comparison is total), and every
timestamp — a future one with negative age included — contributes exactly
one weight from the tier set. -/
theorem c10_frecency_positive_bounded (now : Int) (r : RepoAccess) (t : Int)
    (h1 : r.access_times ≠ []) (h2 : r.access_times.length ≤ 10)
    (ht : t ∈ r.access_times) :
    0 < r.calculate_frecency now ∧ r.calculate_frecency now ≤ 1000 ∧
      RepoAccess.weight (now - t) ∈ ([100, 80, 60, 40, 20, 10] : List Nat) := by
  refine ⟨frecency_pos now r h1, ?_, weight_mem_tiers _⟩
  have := frecency_le_hundred_mul now r
  omega

/-- Witness for C10 at a concrete record whose history holds a past and a
future timestamp. -/
theorem c10_witness :
    (RepoAccess.mk ["t"] [-3, 5]).access_times ≠ [] ∧
    (RepoAccess.mk ["t"] [-3, 5]).access_times.length ≤ 10 ∧
    (5 : Int) ∈ (RepoAccess.mk ["t"] [-3, 5]).access_times ∧
    (0 < (RepoAccess.mk ["t"] [-3, 5]).calculate_frecency 0 ∧
      (RepoAccess.mk ["t"] [-3, 5]).calculate_frecency 0 ≤ 1000 ∧
      RepoAccess.weight ((0 : Int) - 5) ∈ ([100, 80, 60, 40, 20, 10] : List Nat)) :=
  ⟨by decide, by decide, by decide,
    c10_frecency_positive_bounded 0 (RepoAccess.mk ["t"] [-3, 5]) 5
      (by decide) (by decide) (by decide)⟩

/-- C5: `add_repo` on a path whose resolved absolute form does not exist
fails with the path-not-found error and returns the storage unchanged. -/
theorem c5_add_nonexistent_path_fails (fs : String → Bool) (cwd : String)
    (now : Int) (p : String) (tags : List String) (s : Storage)
    (h : fs (Storage.to_absolute_path cwd p) = false) :
    Storage.add_repo fs cwd now p tags s
      = (.error (.pathNotFound (Storage.to_absolute_path cwd p)), s) := by
  unfold Storage.add_repo
  simp [h]

/-- Witness for C5 on an everywhere-false filesystem. -/
theorem c5_witness :
    (fun _ : String => false) (Storage.to_absolute_path "/c" "x") = false ∧
    Storage.add_repo (fun _ : String => false) "/c" 0 "x" ["t"] Storage.empty
      = (.error (.pathNotFound (Storage.to_absolute_path "/c" "x")), Storage.empty) :=
  ⟨rfl, c5_add_nonexistent_path_fails (fun _ => false) "/c" 0 "x" ["t"] Storage.empty rfl⟩

/-- C9: loading with the backing file absent yields the empty index and is
not an error; loading file contents the parser rejects fails with the
corrupt-state error instead of silently yielding an empty index; and after a
successful parse the cleanup pass runs before the index is returned. -/
theorem c9_load_semantics (parse : String → Option Storage) (fs : String → Bool)
    (d1 d2 : String) (st : Storage)
    (h1 : parse d1 = none) (h2 : parse d2 = some st) :
    Storage.new parse fs none = .ok Storage.empty ∧
    Storage.new parse fs (some d1) = .error .corruptState ∧
    Storage.new parse fs (some d2) = .ok (Storage.cleanup fs st) := by
  refine ⟨rfl, ?_, ?_⟩ <;> simp [Storage.new, h1, h2]

/-- Witness for C9 with a parser accepting exactly one document, over a
filesystem on which only `/a` exists (so cleanup visibly prunes `/b`). -/
theorem c9_witness :
    (fun d : String => if d = "ok" then some (Storage.mk [("/a", ⟨["t"], [0]⟩), ("/b", ⟨[], [1]⟩)]) else none) "bad" = none ∧
    (fun d : String => if d = "ok" then some (Storage.mk [("/a", ⟨["t"], [0]⟩), ("/b", ⟨[], [1]⟩)]) else none) "ok"
      = some (Storage.mk [("/a", ⟨["t"], [0]⟩), ("/b", ⟨[], [1]⟩)]) ∧
    (Storage.new (fun d => if d = "ok" then some (Storage.mk [("/a", ⟨["t"], [0]⟩), ("/b", ⟨[], [1]⟩)]) else none) (fun q => q = "/a") none = .ok Storage.empty ∧
      Storage.new (fun d => if d = "ok" then some (Storage.mk [("/a", ⟨["t"], [0]⟩), ("/b", ⟨[], [1]⟩)]) else none) (fun q => q = "/a") (some "bad") = .error .corruptState ∧
      Storage.new (fun d => if d = "ok" then some (Storage.mk [("/a", ⟨["t"], [0]⟩), ("/b", ⟨[], [1]⟩)]) else none) (fun q => q = "/a") (some "ok")
        = .ok (Storage.cleanup (fun q => q = "/a") (Storage.mk [("/a", ⟨["t"], [0]⟩), ("/b", ⟨[], [1]⟩)]))) :=
  ⟨by decide, by decide,
    c9_load_semantics _ _ "bad" "ok" _ (by decide) (by decide)⟩

/-! ## Association-list lemmas for the modelled map -/

theorem list_find?_key_of_mem (l : List (String × RepoAccess)) (p : String)
    (r : RepoAccess) (hnd : (l.map Prod.fst).Nodup) (hmem : (p, r) ∈ l) :
    l.find? (fun pr => pr.1 == p) = some (p, r) := by
  induction l with
  | nil => simp at hmem
  | cons a l ih =>
    simp only [List.map_cons, List.nodup_cons] at hnd
    rcases List.mem_cons.1 hmem with h | h
    · rw [← h]
      simp [List.find?_cons]
    · have hp : p ∈ l.map Prod.fst := List.mem_map_of_mem Prod.fst h
      have hne : (a.1 == p) = false := by
        rcases hbe : a.1 == p with _ | _
        · rfl
        · exact absurd (of_decide_eq_true hbe ▸ hp) hnd.1
      rw [List.find?_cons, hne]
      exact ih hnd.2 h

theorem nodup_key_eq (l : List (String × RepoAccess)) (p : String)
    (r r' : RepoAccess) (hnd : (l.map Prod.fst).Nodup)
    (h1 : (p, r) ∈ l) (h2 : (p, r') ∈ l) : r' = r := by
  have ha := list_find?_key_of_mem l p r hnd h1
  have hb := list_find?_key_of_mem l p r' hnd h2
  rw [ha] at hb
  simpa using hb.symm

theorem storage_find?_map (l : List (String × RepoAccess))
    (g : String × RepoAccess → RepoAccess) (key : String) :
    Storage.find? ⟨l.map (fun pr => (pr.1, g pr))⟩ key
      = (l.find? (fun pr => pr.1 == key)).map (fun pr => g pr) := by
  unfold Storage.find?
  rw [List.find?_map]
  rw [Option.map_map]
  rfl

/-- C6: adding an existing, untracked path returns `true` and seeds the
record with the given tags and one access timestamp; adding the same path
again returns `false`, fully replaces the tags with the new list, and
records one additional access. -/
theorem c6_add_semantics (fs : String → Bool) (cwd : String) (now1 now2 : Int)
    (p : String) (t1 t2 : List String) (s : Storage)
    (habs : fs (Storage.to_absolute_path cwd p) = true)
    (hnew : s.find? (Storage.to_absolute_path cwd p) = none) :
    (Storage.add_repo fs cwd now1 p t1 s).1 = .ok true ∧
    (Storage.add_repo fs cwd now1 p t1 s).2.find? (Storage.to_absolute_path cwd p)
        = some ⟨t1, [now1]⟩ ∧
    (Storage.add_repo fs cwd now2 p t2 (Storage.add_repo fs cwd now1 p t1 s).2).1
        = .ok false ∧
    (Storage.add_repo fs cwd now2 p t2 (Storage.add_repo fs cwd now1 p t1 s).2).2.find?
        (Storage.to_absolute_path cwd p) = some ⟨t2, [now1, now2]⟩ := by
  have hfnone : s.repos.find? (fun pr => pr.1 == Storage.to_absolute_path cwd p) = none := by
    unfold Storage.find? at hnew
    cases hfe : s.repos.find? (fun pr => pr.1 == Storage.to_absolute_path cwd p) with
    | none => rfl
    | some x => rw [hfe] at hnew; simp at hnew
  have h1 : Storage.add_repo fs cwd now1 p t1 s
      = (.ok true, ⟨s.repos ++ [(Storage.to_absolute_path cwd p, RepoAccess.new now1 t1)]⟩) := by
    unfold Storage.add_repo
    simp [habs, hnew]
  have hfind1 :
      (⟨s.repos ++ [(Storage.to_absolute_path cwd p, RepoAccess.new now1 t1)]⟩ : Storage).find?
        (Storage.to_absolute_path cwd p) = some (RepoAccess.new now1 t1) := by
    unfold Storage.find?
    rw [List.find?_append, hfnone]
    simp [List.find?]
  have hufind :
      (s.repos ++ [(Storage.to_absolute_path cwd p, RepoAccess.new now1 t1)]).find?
        (fun pr => pr.1 == Storage.to_absolute_path cwd p)
      = some (Storage.to_absolute_path cwd p, RepoAccess.new now1 t1) := by
    rw [List.find?_append, hfnone]
    simp [List.find?]
  have h2 : Storage.add_repo fs cwd now2 p t2 (Storage.add_repo fs cwd now1 p t1 s).2
      = (.ok false,
         ⟨(s.repos ++ [(Storage.to_absolute_path cwd p, RepoAccess.new now1 t1)]).map
            (fun pr =>
              (pr.1, if pr.1 == Storage.to_absolute_path cwd p
                     then pr.2.update_tags now2 t2 else pr.2))⟩) := by
    rw [h1]
    unfold Storage.add_repo
    simp [habs, hfind1]
  refine ⟨by rw [h1], by rw [h1]; exact hfind1, by rw [h2], ?_⟩
  rw [h2]
  rw [storage_find?_map
    (s.repos ++ [(Storage.to_absolute_path cwd p, RepoAccess.new now1 t1)])
    (fun pr => if pr.1 == Storage.to_absolute_path cwd p
               then pr.2.update_tags now2 t2 else pr.2)
    (Storage.to_absolute_path cwd p)]
  rw [hufind]
  simp [RepoAccess.update_tags, RepoAccess.record_access, RepoAccess.new]

/-- Witness for C6: a fresh absolute path added twice with different tag
lists on an everywhere-true filesystem. -/
theorem c6_witness :
    (fun _ : String => true) (Storage.to_absolute_path "/c" "/r") = true ∧
    Storage.empty.find? (Storage.to_absolute_path "/c" "/r") = none ∧
    ((Storage.add_repo (fun _ : String => true) "/c" 1 "/r" ["a"] Storage.empty).1 = .ok true ∧
      (Storage.add_repo (fun _ : String => true) "/c" 1 "/r" ["a"] Storage.empty).2.find?
          (Storage.to_absolute_path "/c" "/r") = some ⟨["a"], [1]⟩ ∧
      (Storage.add_repo (fun _ : String => true) "/c" 2 "/r" ["b"]
          (Storage.add_repo (fun _ : String => true) "/c" 1 "/r" ["a"] Storage.empty).2).1
          = .ok false ∧
      (Storage.add_repo (fun _ : String => true) "/c" 2 "/r" ["b"]
          (Storage.add_repo (fun _ : String => true) "/c" 1 "/r" ["a"] Storage.empty).2).2.find?
          (Storage.to_absolute_path "/c" "/r") = some ⟨["b"], [1, 2]⟩) :=
  ⟨rfl, by decide,
    c6_add_semantics (fun _ => true) "/c" 1 2 "/r" ["a"] ["b"] Storage.empty rfl (by decide)⟩

/-- C7: `reset_frequency` with a tracked path returns 1 and collapses that
record's history to exactly one fresh timestamp (its tags untouched, other
records untouched); with an untracked path it returns 0 and mutates
nothing; with no path it collapses every record's history to one fresh
timestamp and returns the count of all records. -/
theorem c7_reset_semantics (cwd : String) (now : Int) (p q : String)
    (s1 s2 s3 : Storage) (r : RepoAccess)
    (h1 : s1.find? (Storage.to_absolute_path cwd p) = some r)
    (h2 : s2.find? (Storage.to_absolute_path cwd p) = none)
    (hq : q ≠ Storage.to_absolute_path cwd p) :
    (Storage.reset_frequency cwd now (some p) s1).1 = 1 ∧
    (Storage.reset_frequency cwd now (some p) s1).2.find? (Storage.to_absolute_path cwd p)
        = some ⟨r.tags, [now]⟩ ∧
    (Storage.reset_frequency cwd now (some p) s1).2.find? q = s1.find? q ∧
    Storage.reset_frequency cwd now (some p) s2 = (0, s2) ∧
    (Storage.reset_frequency cwd now none s3).1 = s3.repos.length ∧
    (Storage.reset_frequency cwd now none s3).2.repos
        = s3.repos.map (fun pr => (pr.1, ⟨pr.2.tags, [now]⟩)) := by
  have hres : Storage.reset_frequency cwd now (some p) s1
      = (1,
         ⟨s1.repos.map (fun pr =>
            (pr.1, if pr.1 == Storage.to_absolute_path cwd p
                   then pr.2.reset_frequency now else pr.2))⟩) := by
    simp [Storage.reset_frequency, h1]
  have hfound : s1.repos.find? (fun pr => pr.1 == Storage.to_absolute_path cwd p)
      = some (Storage.to_absolute_path cwd p, r) := by
    unfold Storage.find? at h1
    cases hfe : s1.repos.find? (fun pr => pr.1 == Storage.to_absolute_path cwd p) with
    | none => rw [hfe] at h1; simp at h1
    | some x =>
      rw [hfe] at h1
      have hkey := List.find?_some hfe
      have hx2 : x.2 = r := by simpa using h1
      have hx1 : x.1 = Storage.to_absolute_path cwd p := by simpa using hkey
      rw [← hx1, ← hx2]
  refine ⟨by rw [hres], ?_, ?_, ?_, ?_, ?_⟩
  · rw [hres]
    rw [storage_find?_map s1.repos
      (fun pr => if pr.1 == Storage.to_absolute_path cwd p
                 then pr.2.reset_frequency now else pr.2)
      (Storage.to_absolute_path cwd p)]
    rw [hfound]
    simp [RepoAccess.reset_frequency]
  · rw [hres]
    rw [storage_find?_map s1.repos
      (fun pr => if pr.1 == Storage.to_absolute_path cwd p
                 then pr.2.reset_frequency now else pr.2) q]
    unfold Storage.find?
    cases hfq : s1.repos.find? (fun pr => pr.1 == q) with
    | none => simp
    | some x =>
      have hkey := List.find?_some hfq
      have hx1 : x.1 = q := by simpa using hkey
      have hxne : (x.1 == Storage.to_absolute_path cwd p) = false := by
        rcases hbe : x.1 == Storage.to_absolute_path cwd p with _ | _
        · rfl
        · exact absurd (hx1 ▸ of_decide_eq_true hbe) hq
      simp [hxne]
      intro hxx
      exact absurd (hx1.symm.trans hxx) hq
  · simp [Storage.reset_frequency, h2]
  · rfl
  · simp [Storage.reset_frequency, RepoAccess.reset_frequency]

/-- Witness for C7 at concrete storages, with a two-record storage for the
reset-all case. -/
theorem c7_witness :
    (Storage.mk [("/a", ⟨["t"], [0, 1, 2]⟩), ("/b", ⟨[], [4]⟩)]).find?
        (Storage.to_absolute_path "/c" "/a") = some ⟨["t"], [0, 1, 2]⟩ ∧
    Storage.empty.find? (Storage.to_absolute_path "/c" "/a") = none ∧
    "/b" ≠ Storage.to_absolute_path "/c" "/a" ∧
    ((Storage.reset_frequency "/c" 9 (some "/a")
        (Storage.mk [("/a", ⟨["t"], [0, 1, 2]⟩), ("/b", ⟨[], [4]⟩)])).1 = 1 ∧
      (Storage.reset_frequency "/c" 9 (some "/a")
        (Storage.mk [("/a", ⟨["t"], [0, 1, 2]⟩), ("/b", ⟨[], [4]⟩)])).2.find?
          (Storage.to_absolute_path "/c" "/a") = some ⟨(RepoAccess.mk ["t"] [0, 1, 2]).tags, [9]⟩ ∧
      (Storage.reset_frequency "/c" 9 (some "/a")
        (Storage.mk [("/a", ⟨["t"], [0, 1, 2]⟩), ("/b", ⟨[], [4]⟩)])).2.find? "/b"
          = (Storage.mk [("/a", ⟨["t"], [0, 1, 2]⟩), ("/b", ⟨[], [4]⟩)]).find? "/b" ∧
      Storage.reset_frequency "/c" 9 (some "/a") Storage.empty = (0, Storage.empty) ∧
      (Storage.reset_frequency "/c" 9 none
        (Storage.mk [("/a", ⟨["t"], [0, 1, 2]⟩), ("/b", ⟨[], [4]⟩)])).1
          = (Storage.mk [("/a", ⟨["t"], [0, 1, 2]⟩), ("/b", ⟨[], [4]⟩)]).repos.length ∧
      (Storage.reset_frequency "/c" 9 none
        (Storage.mk [("/a", ⟨["t"], [0, 1, 2]⟩), ("/b", ⟨[], [4]⟩)])).2.repos
          = (Storage.mk [("/a", ⟨["t"], [0, 1, 2]⟩), ("/b", ⟨[], [4]⟩)]).repos.map
              (fun pr => (pr.1, ⟨pr.2.tags, [9]⟩))) :=
  ⟨by decide, by decide, by decide,
    c7_reset_semantics "/c" 9 "/a" "/b"
      (Storage.mk [("/a", ⟨["t"], [0, 1, 2]⟩), ("/b", ⟨[], [4]⟩)]) Storage.empty
      (Storage.mk [("/a", ⟨["t"], [0, 1, 2]⟩), ("/b", ⟨[], [4]⟩)])
      (RepoAccess.mk ["t"] [0, 1, 2]) (by decide) (by decide) (by decide)⟩

/-- C8 counterexample: the relative inputs `"a"` and `"./a"` denote the same
absolute filesystem path (their resolved forms normalize identically), yet
`to_absolute_path` maps them to different index keys, and adding both from
the same working directory creates two records instead of colliding on one. -/
theorem c8_counterexample :
    normalizePath (Storage.to_absolute_path "/c" "a")
        = normalizePath (Storage.to_absolute_path "/c" "./a") ∧
    Storage.to_absolute_path "/c" "a" ≠ Storage.to_absolute_path "/c" "./a" ∧
    (Storage.add_repo (fun _ : String => true) "/c" 1 "./a" []
        (Storage.add_repo (fun _ : String => true) "/c" 0 "a" [] Storage.empty).2).2.repos.length
      = 2 := by
  refine ⟨by decide, by decide, by decide⟩

/-- C8 (amended): `to_absolute_path` leaves an absolute input unchanged and
resolves a relative input by joining it to the working directory with a
separator, without any `.`/`..` normalization; hence two relative inputs
collide on one index key exactly when they are the same string — not
whenever they denote the same filesystem path. -/
theorem c8_to_absolute_path_amended (cwd p p1 p2 : String)
    (h : isAbsolutePath p = true) (h1 : isAbsolutePath p1 = false)
    (h2 : isAbsolutePath p2 = false) :
    Storage.to_absolute_path cwd p = p ∧
    Storage.to_absolute_path cwd p1 = cwd ++ "/" ++ p1 ∧
    (Storage.to_absolute_path cwd p1 = Storage.to_absolute_path cwd p2 ↔ p1 = p2) := by
  refine ⟨by simp [Storage.to_absolute_path, h], by simp [Storage.to_absolute_path, h1], ?_⟩
  simp only [Storage.to_absolute_path, h1, h2, Bool.false_eq_true, if_false]
  constructor
  · intro he
    have hd : (cwd ++ "/").data ++ p1.data = (cwd ++ "/").data ++ p2.data := by
      have := congrArg String.data he
      simpa [String.data_append] using this
    exact String.ext_iff.2 (List.append_cancel_left hd)
  · intro he
    rw [he]

/-- Witness for C8 (amended) at concrete paths. -/
theorem c8_amended_witness :
    isAbsolutePath "/x" = true ∧ isAbsolutePath "a" = false ∧
    isAbsolutePath "b" = false ∧
    (Storage.to_absolute_path "/c" "/x" = "/x" ∧
      Storage.to_absolute_path "/c" "a" = "/c" ++ "/" ++ "a" ∧
      (Storage.to_absolute_path "/c" "a" = Storage.to_absolute_path "/c" "b" ↔ "a" = "b")) :=
  ⟨by decide, by decide, by decide,
    c8_to_absolute_path_amended "/c" "/x" "a" "b" (by decide) (by decide) (by decide)⟩

/-! ## Bounded-history lemmas -/

theorem record_access_access_times (now : Int) (r : RepoAccess) :
    (r.record_access now).access_times = lastTen (r.access_times ++ [now]) := by
  show (if (r.access_times ++ [now]).length > 10
        then (r.access_times ++ [now]).drop ((r.access_times ++ [now]).length - 10)
        else r.access_times ++ [now]) = lastTen (r.access_times ++ [now])
  unfold lastTen
  by_cases h : (r.access_times ++ [now]).length > 10
  · rw [if_pos h]
  · rw [if_neg h, Nat.sub_eq_zero_of_le (by omega), List.drop_zero]

theorem length_lastTen (l : List Int) : (lastTen l).length = min l.length 10 := by
  unfold lastTen
  rw [List.length_drop]
  omega

theorem lastTen_append (l ts : List Int) :
    lastTen (lastTen l ++ ts) = lastTen (l ++ ts) := by
  unfold lastTen
  rw [← List.drop_append_of_le_length (Nat.sub_le l.length 10)]
  rw [List.drop_drop, List.length_drop]
  congr 1
  rw [List.length_append]
  omega

theorem applyAccesses_access_times (ts : List Int) : ∀ (r : RepoAccess),
    r.access_times.length ≤ 10 →
    (r.applyAccesses ts).access_times = lastTen (r.access_times ++ ts) := by
  induction ts with
  | nil =>
    intro r h
    show r.access_times = lastTen (r.access_times ++ [])
    unfold lastTen
    rw [List.append_nil, Nat.sub_eq_zero_of_le h, List.drop_zero]
  | cons n ts ih =>
    intro r h
    have hstep : r.applyAccesses (n :: ts) = (r.record_access n).applyAccesses ts := rfl
    have hlen : (r.record_access n).access_times.length ≤ 10 := by
      rw [record_access_access_times, length_lastTen]
      omega
    rw [hstep, ih _ hlen, record_access_access_times, lastTen_append]
    congr 1
    simp

theorem applyAccesses_tags (ts : List Int) : ∀ (r : RepoAccess),
    (r.applyAccesses ts).tags = r.tags := by
  induction ts with
  | nil => intro r; rfl
  | cons n ts ih =>
    intro r
    have hstep : r.applyAccesses (n :: ts) = (r.record_access n).applyAccesses ts := rfl
    rw [hstep, ih]
    rfl

/-! ## Invariant preservation -/

theorem recordInv_mono {c c' : Int} (hcc : c ≤ c') {r : RepoAccess}
    (h : RecordInv c r) : RecordInv c' r :=
  ⟨h.1, h.2.1, h.2.2.1, fun t ht => le_trans (h.2.2.2 t ht) hcc⟩

theorem recordInv_new (now : Int) (tags : List String) :
    RecordInv now (RepoAccess.new now tags) := by
  refine ⟨by simp [RepoAccess.new], by simp [RepoAccess.new], ?_, ?_⟩
  · simp [RepoAccess.new]
  · intro t ht
    simp [RepoAccess.new] at ht
    omega

theorem recordInv_reset (now : Int) (r : RepoAccess) :
    RecordInv now (r.reset_frequency now) := by
  refine ⟨by simp [RepoAccess.reset_frequency], by simp [RepoAccess.reset_frequency], ?_, ?_⟩
  · simp [RepoAccess.reset_frequency]
  · intro t ht
    simp [RepoAccess.reset_frequency] at ht
    omega

theorem recordInv_record_access {c : Int} (now : Int) {r : RepoAccess}
    (h : RecordInv c r) (hc : c ≤ now) : RecordInv now (r.record_access now) := by
  obtain ⟨hne, hlen, hsort, hub⟩ := h
  have hta := record_access_access_times now r
  have hPW : (r.access_times ++ [now]).Sorted (fun a b => a ≤ b) := by
    apply List.pairwise_append.2
    refine ⟨hsort, List.pairwise_singleton _ _, ?_⟩
    intro x hx y hy
    rw [List.mem_singleton] at hy
    subst hy
    exact le_trans (hub x hx) hc
  refine ⟨?_, ?_, ?_, ?_⟩
  · have hpos : 0 < ((r.record_access now).access_times).length := by
      rw [hta, length_lastTen, List.length_append]
      have hpos2 : 0 < r.access_times.length := List.length_pos.2 hne
      omega
    exact List.ne_nil_of_length_pos hpos
  · rw [hta, length_lastTen]
    omega
  · rw [hta]
    unfold lastTen
    exact List.Pairwise.sublist (List.drop_sublist _ _) hPW
  · intro t ht
    rw [hta] at ht
    have hmem : t ∈ r.access_times ++ [now] := List.drop_subset _ _ ht
    rcases List.mem_append.1 hmem with hx | hx
    · exact le_trans (hub t hx) hc
    · rw [List.mem_singleton] at hx
      omega

theorem recordInv_update_tags {c : Int} (now : Int) (tags : List String)
    {r : RepoAccess} (h : RecordInv c r) (hc : c ≤ now) :
    RecordInv now (r.update_tags now tags) :=
  recordInv_record_access now (r := { r with tags := tags })
    ⟨h.1, h.2.1, h.2.2.1, h.2.2.2⟩ hc

theorem storageInv_empty (c : Int) : StorageInv c Storage.empty := by
  intro pr hpr
  simp [Storage.empty] at hpr

theorem storageInv_map {c now : Int} {s : Storage}
    (f : String × RepoAccess → RepoAccess)
    (hf : ∀ pr ∈ s.repos, RecordInv c pr.2 → RecordInv now (f pr))
    (h : StorageInv c s) :
    StorageInv now ⟨s.repos.map (fun pr => (pr.1, f pr))⟩ := by
  intro pr' hpr'
  obtain ⟨pr, hpr, rfl⟩ := List.mem_map.1 hpr'
  exact hf pr hpr (h pr hpr)

theorem storageInv_mono {c c' : Int} (hcc : c ≤ c') {s : Storage}
    (h : StorageInv c s) : StorageInv c' s :=
  fun pr hpr => recordInv_mono hcc (h pr hpr)

theorem storageInv_map_cond {c now : Int} {s : Storage} (hc : c ≤ now)
    (h : StorageInv c s) (cond : String × RepoAccess → Bool)
    (g : String × RepoAccess → RepoAccess)
    (hg : ∀ pr ∈ s.repos, RecordInv c pr.2 → RecordInv now (g pr)) :
    StorageInv now ⟨s.repos.map (fun pr => (pr.1, if cond pr then g pr else pr.2))⟩ := by
  apply storageInv_map (fun pr => if cond pr then g pr else pr.2) ?_ h
  intro pr hpr hr
  show RecordInv now (if cond pr then g pr else pr.2)
  by_cases hcond : cond pr
  · rw [if_pos hcond]
    exact hg pr hpr hr
  · rw [if_neg hcond]
    exact recordInv_mono hc hr

theorem storageInv_applyOp (fs : String → Bool) (cwd : String) {c : Int}
    (op : Op) {s : Storage} (h : StorageInv c s) (hc : c ≤ op.time) :
    StorageInv op.time (applyOp fs cwd s op) := by
  cases op with
  | add n p t =>
    have hc' : c ≤ n := hc
    show StorageInv n (Storage.add_repo fs cwd n p t s).2
    by_cases hfs : fs (Storage.to_absolute_path cwd p)
    · by_cases hnew : (s.find? (Storage.to_absolute_path cwd p)).isNone
      · have heq : (Storage.add_repo fs cwd n p t s).2
            = ⟨s.repos ++ [(Storage.to_absolute_path cwd p, RepoAccess.new n t)]⟩ := by
          simp [Storage.add_repo, hfs, hnew]
        rw [heq]
        intro pr hpr
        rcases List.mem_append.1 hpr with hx | hx
        · exact recordInv_mono hc' (h pr hx)
        · rw [List.mem_singleton] at hx
          subst hx
          exact recordInv_new n t
      · have heq : (Storage.add_repo fs cwd n p t s).2
            = ⟨s.repos.map (fun pr =>
                (pr.1, if pr.1 == Storage.to_absolute_path cwd p
                       then pr.2.update_tags n t else pr.2))⟩ := by
          simp [Storage.add_repo, hfs, hnew]
        rw [heq]
        exact storageInv_map_cond hc' h _ _
          (fun pr _ hr => recordInv_update_tags n t hr hc')
    · have heq : (Storage.add_repo fs cwd n p t s).2 = s := by
        simp [Storage.add_repo, hfs]
      rw [heq]
      exact storageInv_mono hc' h
  | update n p t =>
    have hc' : c ≤ n := hc
    show StorageInv n (Storage.update_repo cwd n p t s).2
    cases hfind : s.find? (Storage.to_absolute_path cwd p) with
    | some r0 =>
      have heq : (Storage.update_repo cwd n p t s).2
          = ⟨s.repos.map (fun pr =>
              (pr.1, if pr.1 == Storage.to_absolute_path cwd p
                     then pr.2.update_tags n t else pr.2))⟩ := by
        simp [Storage.update_repo, hfind]
      rw [heq]
      exact storageInv_map_cond hc' h _ _
        (fun pr _ hr => recordInv_update_tags n t hr hc')
    | none =>
      have heq : (Storage.update_repo cwd n p t s).2 = s := by
        simp [Storage.update_repo, hfind]
      rw [heq]
      exact storageInv_mono hc' h
  | access n p =>
    have hc' : c ≤ n := hc
    show StorageInv n (Storage.record_access cwd n p s).2
    cases hfind : s.find? (Storage.to_absolute_path cwd p) with
    | some r0 =>
      have heq : (Storage.record_access cwd n p s).2
          = ⟨s.repos.map (fun pr =>
              (pr.1, if pr.1 == Storage.to_absolute_path cwd p
                     then pr.2.record_access n else pr.2))⟩ := by
        simp [Storage.record_access, hfind]
      rw [heq]
      exact storageInv_map_cond hc' h _ _
        (fun pr _ hr => recordInv_record_access n hr hc')
    | none =>
      have heq : (Storage.record_access cwd n p s).2 = s := by
        simp [Storage.record_access, hfind]
      rw [heq]
      exact storageInv_mono hc' h
  | reset n po =>
    have hc' : c ≤ n := hc
    show StorageInv n (Storage.reset_frequency cwd n po s).2
    cases po with
    | some p =>
      cases hfind : s.find? (Storage.to_absolute_path cwd p) with
      | some r0 =>
        have heq : (Storage.reset_frequency cwd n (some p) s).2
            = ⟨s.repos.map (fun pr =>
                (pr.1, if pr.1 == Storage.to_absolute_path cwd p
                       then pr.2.reset_frequency n else pr.2))⟩ := by
          simp [Storage.reset_frequency, hfind]
        rw [heq]
        exact storageInv_map_cond hc' h _ _
          (fun pr _ _ => recordInv_reset n pr.2)
      | none =>
        have heq : (Storage.reset_frequency cwd n (some p) s).2 = s := by
          simp [Storage.reset_frequency, hfind]
        rw [heq]
        exact storageInv_mono hc' h
    | none =>
      have heq : (Storage.reset_frequency cwd n none s).2
          = ⟨s.repos.map (fun pr => (pr.1, pr.2.reset_frequency n))⟩ := by
        simp [Storage.reset_frequency]
      rw [heq]
      exact storageInv_map _ (fun pr _ _ => recordInv_reset n pr.2) h
  | search n tag =>
    have hc' : c ≤ n := hc
    show StorageInv n (Storage.search_by_tag n tag s).2
    have heq : (Storage.search_by_tag n tag s).2
        = ⟨s.repos.map (fun pr =>
            (pr.1, if Storage.tagMatches tag pr.2
                   then pr.2.record_access n else pr.2))⟩ := rfl
    rw [heq]
    exact storageInv_map_cond hc' h _ _
      (fun pr _ hr => recordInv_record_access n hr hc')

theorem storageInv_applyOps (fs : String → Bool) (cwd : String) :
    ∀ (ops : List Op) (c : Int) (s : Storage),
    StorageInv c s → opsMono c ops = true →
    StorageInv (lastClock c ops) (applyOps fs cwd s ops) := by
  intro ops
  induction ops with
  | nil => intro c s h _; exact h
  | cons op rest ih =>
    intro c s h hm
    have hm' : (decide (c ≤ op.time) && opsMono op.time rest) = true := hm
    rw [Bool.and_eq_true] at hm'
    have hc : c ≤ op.time := of_decide_eq_true hm'.1
    exact ih op.time _ (storageInv_applyOp fs cwd op h hc) hm'.2

/-- C2: under a monotone clock, after any sequence of add / update /
record-access / reset / search operations starting from the empty index,
every tracked record's `access_times` is non-empty, holds at most 10
entries, and is chronologically ascending; and a record seeded by creation
and then given `record_access` at 10 or more further instants (11 or more
accesses in total) holds exactly the last 10 of those instants, oldest
first (FIFO eviction of the oldest). -/
theorem c2_access_times_invariant (fs : String → Bool) (cwd : String)
    (c0 : Int) (ops : List Op) (p : String) (r : RepoAccess)
    (tags : List String) (t0 : Int) (ts : List Int)
    (hmono : opsMono c0 ops = true)
    (hmem : (p, r) ∈ (applyOps fs cwd Storage.empty ops).repos)
    (h11 : 10 ≤ ts.length) :
    (r.access_times ≠ [] ∧ r.access_times.length ≤ 10 ∧
      r.access_times.Sorted (fun a b => a ≤ b)) ∧
    ((RepoAccess.new t0 tags).applyAccesses ts).access_times
        = (t0 :: ts).drop ((t0 :: ts).length - 10) ∧
    ((RepoAccess.new t0 tags).applyAccesses ts).access_times.length = 10 := by
  have hs := storageInv_applyOps fs cwd ops c0 Storage.empty (storageInv_empty c0) hmono
  have hr := hs (p, r) hmem
  have h2 := applyAccesses_access_times ts (RepoAccess.new t0 tags)
    (by simp [RepoAccess.new])
  have h2' : ((RepoAccess.new t0 tags).applyAccesses ts).access_times
      = (t0 :: ts).drop ((t0 :: ts).length - 10) := by
    rw [h2]
    unfold lastTen
    simp [RepoAccess.new]
  refine ⟨⟨hr.1, hr.2.1, hr.2.2.1⟩, h2', ?_⟩
  rw [h2', List.length_drop]
  simp only [List.length_cons]
  omega

/-- Witness for C2: an add, a record-access and a search on one path under
a monotone clock, plus a seed followed by 10 recorded accesses. -/
theorem c2_witness :
    opsMono 0 [Op.add 1 "/a" ["t"], Op.access 2 "/a", Op.search 3 "t"] = true ∧
    ("/a", (⟨["t"], [1, 2, 3]⟩ : RepoAccess)) ∈
      (applyOps (fun _ : String => true) "/c" Storage.empty
        [Op.add 1 "/a" ["t"], Op.access 2 "/a", Op.search 3 "t"]).repos ∧
    10 ≤ ([1, 2, 3, 4, 5, 6, 7, 8, 9, 10] : List Int).length ∧
    (((⟨["t"], [1, 2, 3]⟩ : RepoAccess).access_times ≠ [] ∧
        (⟨["t"], [1, 2, 3]⟩ : RepoAccess).access_times.length ≤ 10 ∧
        (⟨["t"], [1, 2, 3]⟩ : RepoAccess).access_times.Sorted (fun a b => a ≤ b)) ∧
      ((RepoAccess.new 0 ["s"]).applyAccesses [1, 2, 3, 4, 5, 6, 7, 8, 9, 10]).access_times
          = ((0 : Int) :: [1, 2, 3, 4, 5, 6, 7, 8, 9, 10]).drop
              (((0 : Int) :: [1, 2, 3, 4, 5, 6, 7, 8, 9, 10]).length - 10) ∧
      ((RepoAccess.new 0 ["s"]).applyAccesses [1, 2, 3, 4, 5, 6, 7, 8, 9, 10]).access_times.length
          = 10) :=
  ⟨by decide, by decide, by decide,
    c2_access_times_invariant (fun _ => true) "/c" 0
      [Op.add 1 "/a" ["t"], Op.access 2 "/a", Op.search 3 "t"] "/a"
      ⟨["t"], [1, 2, 3]⟩ ["s"] 0 [1, 2, 3, 4, 5, 6, 7, 8, 9, 10]
      (by decide) (by decide) (by decide)⟩

/-- C3: `search_by_tag` selects exactly the records whose tag list contains
a case-insensitive whole-string match of the query; each selected record
first gets a fresh access appended (with truncation) and its score is
computed on that post-access record; the returned list is the selected
paths sorted by that score descending, and only paths are returned (scores
stay internal). -/
theorem c3_search_by_tag_spec (now : Int) (tag : String) (s : Storage)
    (p : String) (r : RepoAccess)
    (hkeys : (s.repos.map Prod.fst).Nodup) (hmem : (p, r) ∈ s.repos) :
    (p ∈ (Storage.search_by_tag now tag s).1 ↔ Storage.tagMatches tag r = true) ∧
    ((Storage.search_by_tag now tag s).2.find? p
        = some (if Storage.tagMatches tag r then r.record_access now else r)) ∧
    ((Storage.search_by_tag now tag s).1.map (fun q =>
        (((Storage.search_by_tag now tag s).2.find? q).map
          (RepoAccess.calculate_frecency now)).getD 0)).Sorted (fun a b => a ≥ b) ∧
    (Storage.search_by_tag now tag s).1.Perm
      ((s.repos.filter (fun pr => Storage.tagMatches tag pr.2)).map Prod.fst) := by
  have hfst : (Storage.search_by_tag now tag s).1
      = (List.insertionSort Storage.scoreDesc
          ((s.repos.filter (fun pr => Storage.tagMatches tag pr.2)).map
            (fun pr => (pr.1, (pr.2.record_access now).calculate_frecency now)))).map
          (fun x => x.1) := rfl
  have hsnd : (Storage.search_by_tag now tag s).2
      = ⟨s.repos.map (fun pr =>
          (pr.1, if Storage.tagMatches tag pr.2
                 then pr.2.record_access now else pr.2))⟩ := rfl
  have hfind : ∀ (q : String) (rq : RepoAccess), (q, rq) ∈ s.repos →
      (Storage.search_by_tag now tag s).2.find? q
        = some (if Storage.tagMatches tag rq then rq.record_access now else rq) := by
    intro q rq hq
    rw [hsnd, storage_find?_map s.repos
      (fun pr => if Storage.tagMatches tag pr.2 then pr.2.record_access now else pr.2) q]
    rw [list_find?_key_of_mem s.repos q rq hkeys hq]
    rfl
  refine ⟨?_, hfind p r hmem, ?_, ?_⟩
  · constructor
    · intro hp
      rw [hfst] at hp
      obtain ⟨x, hx, hx1⟩ := List.mem_map.1 hp
      have hx' := (List.mem_insertionSort Storage.scoreDesc).1 hx
      obtain ⟨pr, hpr, hprx⟩ := List.mem_map.1 hx'
      have hprmem : pr ∈ s.repos := (List.mem_filter.1 hpr).1
      have hprmatch : Storage.tagMatches tag pr.2 = true := (List.mem_filter.1 hpr).2
      have hpr1 : pr.1 = p := by rw [← hx1, ← hprx]
      have hmem2 : (p, pr.2) ∈ s.repos := by
        rw [← hpr1]
        exact hprmem
      have hr2 : pr.2 = r := nodup_key_eq s.repos p r pr.2 hkeys hmem hmem2
      rw [← hr2]
      exact hprmatch
    · intro hmatch
      rw [hfst]
      apply List.mem_map.2
      refine ⟨(p, (r.record_access now).calculate_frecency now), ?_, rfl⟩
      apply (List.mem_insertionSort Storage.scoreDesc).2
      apply List.mem_map.2
      exact ⟨(p, r), List.mem_filter.2 ⟨hmem, hmatch⟩, rfl⟩
  · have hsorted := List.sorted_insertionSort Storage.scoreDesc
      ((s.repos.filter (fun pr => Storage.tagMatches tag pr.2)).map
        (fun pr => (pr.1, (pr.2.record_access now).calculate_frecency now)))
    have hcong : ∀ x ∈ List.insertionSort Storage.scoreDesc
        ((s.repos.filter (fun pr => Storage.tagMatches tag pr.2)).map
          (fun pr => (pr.1, (pr.2.record_access now).calculate_frecency now))),
        (((Storage.search_by_tag now tag s).2.find? x.1).map
          (RepoAccess.calculate_frecency now)).getD 0 = x.2 := by
      intro x hx
      have hx' := (List.mem_insertionSort Storage.scoreDesc).1 hx
      obtain ⟨pr, hpr, rfl⟩ := List.mem_map.1 hx'
      have hprmem : pr ∈ s.repos := (List.mem_filter.1 hpr).1
      have hprmatch : Storage.tagMatches tag pr.2 = true := (List.mem_filter.1 hpr).2
      have hq := hfind pr.1 pr.2 hprmem
      rw [hq, if_pos hprmatch]
      rfl
    rw [hfst, List.map_map]
    have hmapeq := List.map_congr_left hcong
    simp only [Function.comp_def]
    rw [hmapeq]
    exact List.Pairwise.map Prod.snd (fun a b h => h) hsorted
  · rw [hfst]
    have hperm := (List.perm_insertionSort Storage.scoreDesc
      ((s.repos.filter (fun pr => Storage.tagMatches tag pr.2)).map
        (fun pr => (pr.1, (pr.2.record_access now).calculate_frecency now)))).map
      (fun x => x.1)
    rw [List.map_map] at hperm
    exact hperm

/-- Witness for C3 on a two-record storage where `"Rust"` matches the query
`"rust"` and `"go"` does not. -/
theorem c3_witness :
    ((Storage.mk [("/a", ⟨["Rust"], [0]⟩), ("/b", ⟨["go"], [0]⟩)]).repos.map
        Prod.fst).Nodup ∧
    ("/a", (⟨["Rust"], [0]⟩ : RepoAccess))
        ∈ (Storage.mk [("/a", ⟨["Rust"], [0]⟩), ("/b", ⟨["go"], [0]⟩)]).repos ∧
    (("/a" ∈ (Storage.search_by_tag 5 "rust"
        (Storage.mk [("/a", ⟨["Rust"], [0]⟩), ("/b", ⟨["go"], [0]⟩)])).1
        ↔ Storage.tagMatches "rust" (⟨["Rust"], [0]⟩ : RepoAccess) = true) ∧
      ((Storage.search_by_tag 5 "rust"
          (Storage.mk [("/a", ⟨["Rust"], [0]⟩), ("/b", ⟨["go"], [0]⟩)])).2.find? "/a"
          = some (if Storage.tagMatches "rust" (⟨["Rust"], [0]⟩ : RepoAccess)
                  then (⟨["Rust"], [0]⟩ : RepoAccess).record_access 5
                  else (⟨["Rust"], [0]⟩ : RepoAccess))) ∧
      ((Storage.search_by_tag 5 "rust"
          (Storage.mk [("/a", ⟨["Rust"], [0]⟩), ("/b", ⟨["go"], [0]⟩)])).1.map (fun q =>
          (((Storage.search_by_tag 5 "rust"
              (Storage.mk [("/a", ⟨["Rust"], [0]⟩), ("/b", ⟨["go"], [0]⟩)])).2.find? q).map
            (RepoAccess.calculate_frecency 5)).getD 0)).Sorted (fun a b => a ≥ b) ∧
      (Storage.search_by_tag 5 "rust"
          (Storage.mk [("/a", ⟨["Rust"], [0]⟩), ("/b", ⟨["go"], [0]⟩)])).1.Perm
        (((Storage.mk [("/a", ⟨["Rust"], [0]⟩), ("/b", ⟨["go"], [0]⟩)]).repos.filter
            (fun pr => Storage.tagMatches "rust" pr.2)).map Prod.fst)) :=
  ⟨by decide, by decide,
    c3_search_by_tag_spec 5 "rust"
      (Storage.mk [("/a", ⟨["Rust"], [0]⟩), ("/b", ⟨["go"], [0]⟩)])
      "/a" ⟨["Rust"], [0]⟩ (by decide) (by decide)⟩

/-- C4 counterexample: with identical tags, one initial access each and all
events inside one minute, access path A 10 further times and path B 9
further times; A was accessed strictly more often, yet the 10-entry cap
truncates A's history to 10 entries and both scores are the equal value
1000 — A's score is not strictly greater. -/
theorem c4_counterexample :
    (List.replicate 10 (0 : Int)).length > (List.replicate 9 (0 : Int)).length ∧
    ¬ (((RepoAccess.new 0 ["t"]).applyAccesses (List.replicate 9 0)).calculate_frecency 0
        < ((RepoAccess.new 0 ["t"]).applyAccesses (List.replicate 10 0)).calculate_frecency 0) := by
  decide

theorem sum_weights_recent (now : Int) (l : List Int)
    (h : ∀ t ∈ l, now - t < 60) :
    (l.map (fun t => RepoAccess.weight (now - t))).sum = 100 * l.length := by
  induction l with
  | nil => simp
  | cons a l ih =>
    have ha : RepoAccess.weight (now - a) = 100 := by
      unfold RepoAccess.weight
      rw [if_pos (h a (List.mem_cons_self a l))]
    simp only [List.map_cons, List.sum_cons, List.length_cons, ha]
    rw [ih (fun t ht => h t (List.mem_cons_of_mem a ht))]
    ring

theorem frecency_recent (now : Int) (r : RepoAccess)
    (h : ∀ t ∈ r.access_times, now - t < 60) :
    r.calculate_frecency now = 100 * r.access_times.length := by
  rw [calculate_frecency_eq_sum, sum_weights_recent now _ h]

theorem applyAccesses_new_access_times (t0 : Int) (tags : List String)
    (ts : List Int) (h : ts.length ≤ 9) :
    ((RepoAccess.new t0 tags).applyAccesses ts).access_times = t0 :: ts := by
  rw [applyAccesses_access_times ts _ (by simp [RepoAccess.new])]
  unfold lastTen
  have hz : ((RepoAccess.new t0 tags).access_times ++ ts).length - 10 = 0 := by
    simp [RepoAccess.new]
    omega
  rw [hz, List.drop_zero]
  rfl

/-- C4 (amended): for two paths with identical tag sets, one initial access
each, and all accesses lying in the same (freshest) weight tier at
evaluation time, recording strictly more accesses on A than on B — while A
stays within the 10-entry cap even after the search's own recorded access
(at most 8 extra accesses) — makes A's frecency strictly greater than B's,
and `search_by_tag` on the shared tag returns A before B. -/
theorem c4_more_accesses_rank_higher (now a0 b0 : Int)
    (pA pB tag : String) (tags : List String) (accA accB : List Int)
    (hne : pA ≠ pB)
    (htag : (tags.any (fun t => lowerString t == lowerString tag)) = true)
    (hA : ∀ t ∈ a0 :: accA, now - t < 60)
    (hB : ∀ t ∈ b0 :: accB, now - t < 60)
    (hcap : accA.length ≤ 8)
    (hmore : accB.length < accA.length) :
    ((RepoAccess.new b0 tags).applyAccesses accB).calculate_frecency now
        < ((RepoAccess.new a0 tags).applyAccesses accA).calculate_frecency now ∧
    (Storage.search_by_tag now tag
        ⟨[(pA, (RepoAccess.new a0 tags).applyAccesses accA),
          (pB, (RepoAccess.new b0 tags).applyAccesses accB)]⟩).1 = [pA, pB] := by
  set rA := (RepoAccess.new a0 tags).applyAccesses accA with hrA
  set rB := (RepoAccess.new b0 tags).applyAccesses accB with hrB
  have hAt : rA.access_times = a0 :: accA :=
    applyAccesses_new_access_times a0 tags accA (by omega)
  have hBt : rB.access_times = b0 :: accB :=
    applyAccesses_new_access_times b0 tags accB (by omega)
  have hfA : rA.calculate_frecency now = 100 * (accA.length + 1) := by
    rw [frecency_recent now rA (by rw [hAt]; exact hA), hAt]
    simp [Nat.mul_comm]
  have hfB : rB.calculate_frecency now = 100 * (accB.length + 1) := by
    rw [frecency_recent now rB (by rw [hBt]; exact hB), hBt]
    simp [Nat.mul_comm]
  refine ⟨by rw [hfA, hfB]; omega, ?_⟩
  have htagsA : rA.tags = tags := by
    rw [hrA, applyAccesses_tags]
    rfl
  have htagsB : rB.tags = tags := by
    rw [hrB, applyAccesses_tags]
    rfl
  have hmatchA : Storage.tagMatches tag rA = true := by
    unfold Storage.tagMatches
    rw [htagsA]
    exact htag
  have hmatchB : Storage.tagMatches tag rB = true := by
    unfold Storage.tagMatches
    rw [htagsB]
    exact htag
  have hAt2 : (rA.record_access now).access_times = (a0 :: accA) ++ [now] := by
    rw [record_access_access_times, hAt]
    unfold lastTen
    rw [Nat.sub_eq_zero_of_le (by simp; omega), List.drop_zero]
  have hBt2 : (rB.record_access now).access_times = (b0 :: accB) ++ [now] := by
    rw [record_access_access_times, hBt]
    unfold lastTen
    rw [Nat.sub_eq_zero_of_le (by simp; omega), List.drop_zero]
  have hsA : (rA.record_access now).calculate_frecency now = 100 * (accA.length + 2) := by
    rw [frecency_recent now _ ?bndA, hAt2]
    · simp [Nat.mul_comm]
    case bndA =>
      intro t ht
      rw [hAt2] at ht
      rcases List.mem_append.1 ht with hx | hx
      · exact hA t hx
      · rw [List.mem_singleton] at hx
        omega
  have hsB : (rB.record_access now).calculate_frecency now = 100 * (accB.length + 2) := by
    rw [frecency_recent now _ ?bndB, hBt2]
    · simp [Nat.mul_comm]
    case bndB =>
      intro t ht
      rw [hBt2] at ht
      rcases List.mem_append.1 ht with hx | hx
      · exact hB t hx
      · rw [List.mem_singleton] at hx
        omega
  have hfilter : ([(pA, rA), (pB, rB)].filter (fun pr => Storage.tagMatches tag pr.2))
      = [(pA, rA), (pB, rB)] := by
    simp [List.filter, hmatchA, hmatchB]
  have hres : (Storage.search_by_tag now tag ⟨[(pA, rA), (pB, rB)]⟩).1
      = (List.insertionSort Storage.scoreDesc
          [(pA, 100 * (accA.length + 2)), (pB, 100 * (accB.length + 2))]).map
          (fun x => x.1) := by
    show (List.insertionSort Storage.scoreDesc
        (([(pA, rA), (pB, rB)].filter (fun pr => Storage.tagMatches tag pr.2)).map
          (fun pr => (pr.1, (pr.2.record_access now).calculate_frecency now)))).map
        (fun x => x.1) = _
    rw [hfilter]
    simp only [List.map_cons, List.map_nil]
    rw [hsA, hsB]
  rw [hres]
  have hle : (100 * (accB.length + 2)) ≤ (100 * (accA.length + 2)) := by omega
  have hsort : List.insertionSort Storage.scoreDesc
      [(pA, 100 * (accA.length + 2)), (pB, 100 * (accB.length + 2))]
      = [(pA, 100 * (accA.length + 2)), (pB, 100 * (accB.length + 2))] := by
    simp [List.insertionSort, List.orderedInsert, Storage.scoreDesc, hle]
  rw [hsort]
  rfl

/-- Witness for C4 (amended): A gets one extra access, B none, all at the
evaluation instant. -/
theorem c4_witness :
    ("/a" : String) ≠ "/b" ∧
    ((["t"] : List String).any (fun t => lowerString t == lowerString "t")) = true ∧
    (∀ t ∈ ((0 : Int) :: [0]), (0 : Int) - t < 60) ∧
    (∀ t ∈ ([(0 : Int)] : List Int), (0 : Int) - t < 60) ∧
    ([(0 : Int)] : List Int).length ≤ 8 ∧
    ([] : List Int).length < ([(0 : Int)] : List Int).length ∧
    (((RepoAccess.new 0 ["t"]).applyAccesses []).calculate_frecency 0
        < ((RepoAccess.new 0 ["t"]).applyAccesses [0]).calculate_frecency 0 ∧
      (Storage.search_by_tag 0 "t"
          ⟨[("/a", (RepoAccess.new 0 ["t"]).applyAccesses [0]),
            ("/b", (RepoAccess.new 0 ["t"]).applyAccesses [])]⟩).1 = ["/a", "/b"]) :=
  ⟨by decide, by decide, by decide, by decide, by decide, by decide,
    c4_more_accesses_rank_higher 0 0 0 "/a" "/b" "t" ["t"] [0] []
      (by decide) (by decide) (by decide) (by decide) (by decide) (by decide)⟩
